import Mathlib

/-!
Shallow embedding of `pypprof/yappi_profiler.py`, specifically
`YappiProfiler._convert_to_pprof` (lines 28-121), the aggregation algorithm
that turns yappi per-function and per-edge statistics into a pprof-style
sample table.

Modelling choices:
- yappi reports times (`ttot`, `tsub`) as seconds; we model them as exact
  rationals.  Python's `int(x)` truncates toward zero, which on a rational
  `num/den` (with `den > 0`) is T-division (`Int.tdiv`) of `num` by `den`.
  The combined "subtract, scale by 1e9, truncate" step (`int((x - y) * 1e9)`
  in the source) is computed on the raw numerator/denominator fields as
  `nsDiff`; truncation toward zero is invariant under the common positive
  factor `x.den * y.den`, so skipping normalization is exact.  (Mathlib
  seals `Rat.sub`/`Rat.mul` behind `@[irreducible]`, which would block
  kernel evaluation of concrete inputs.)
- the `defaultdict(lambda: [0, 0])` sample accumulator is modelled as an
  insertion-ordered association list (`Table`) with the read-modify-write
  `bump` operation; the `defaultdict(int)` coverage map is modelled as a
  total function `Cov` with default `0`, which is faithful because the root
  pass only reads it through `.get(key, 0)`.
- `hasattr(func_stat, 'children')` is modelled by making `children` an
  `Option`, as the spec's design notes themselves suggest.
-/

abbrev Frame := String × String × Int × Int
abbrev Trace := List Frame
abbrev FKey := String × String × Int
abbrev Table := List (Trace × Int × Int)
abbrev Cov := FKey → Int

/-- A yappi per-edge child statistics record (`child_stat` in the source). -/
structure YChildStat where
  name : String
  module : String
  lineno : Int
  ttot : Rat
  tsub : Rat
  ncall : Nat
deriving DecidableEq

/-- A yappi per-function statistics record (`func_stat` in the source). -/
structure YFuncStat where
  name : String
  module : String
  lineno : Int
  ttot : Rat
  tsub : Rat
  ncall : Nat
  children : Option (List YChildStat)
deriving DecidableEq

/-- Python `int((a - b) * 1e9)` (line 56 / line 81): the exact difference of
two times in seconds, scaled to nanoseconds and truncated toward zero,
computed on the raw `num`/`den` representation of the rationals. -/
def nsDiff (a b : Rat) : Int :=
  Int.tdiv ((a.num * (b.den : Int) - b.num * (a.den : Int)) * 1000000000)
    ((a.den : Int) * (b.den : Int))

/-- The `make_frame` helper (lines 37-41) applied to a function record. -/
def makeFrame (f : YFuncStat) : Frame := (f.name, f.module, f.lineno, f.lineno)

/-- The `make_frame` helper (lines 37-41) applied to a child record. -/
def makeFrameC (c : YChildStat) : Frame := (c.name, c.module, c.lineno, c.lineno)

/-- The coverage-map key of a function record (line 79). -/
def funcKey (f : YFuncStat) : FKey := (f.name, f.module, f.lineno)

/-- The coverage-map key of a child record (line 73). -/
def childKey (c : YChildStat) : FKey := (c.name, c.module, c.lineno)

/-- Lines 56-60: per-edge self time in ns, clamped at zero. -/
def edgeSelfNs (c : YChildStat) : Int :=
  let s := nsDiff c.ttot c.tsub
  if s < 0 then 0 else s

/-- Lines 81-83: per-function total self time in ns, clamped at zero. -/
def totalSelfNs (f : YFuncStat) : Int :=
  let s := nsDiff f.ttot f.tsub
  if s < 0 then 0 else s

/-- Python `entry = samples[trace]; entry[0] += dc; entry[1] += dv` on the
`defaultdict(lambda: [0, 0])`: update the entry in place if the key exists,
otherwise materialize it (Python dicts preserve insertion order). -/
def bump : Table → Trace → Int → Int → Table
  | [], t, dc, dv => [(t, dc, dv)]
  | (t', c, v) :: rest, t, dc, dv =>
    if t' = t then (t', c + dc, v + dv) :: rest
    else (t', c, v) :: bump rest t dc dv

/-- Read a trace's accumulated entry, if the key has been materialized. -/
def lookupTr : Table → Trace → Option (Int × Int)
  | [], _ => none
  | (t', c, v) :: rest, t => if t' = t then some (c, v) else lookupTr rest t

/-- The `[count, value]` pair a trace holds (`[0, 0]` if never touched). -/
def valAt (tbl : Table) (t : Trace) : Int × Int := (lookupTr tbl t).getD (0, 0)

/-- Lines 50-74: one iteration of the inner edge loop, for the pair
`(caller frame, child record)`. -/
def processEdge (st : Table × Cov) (e : Frame × YChildStat) : Table × Cov :=
  (bump st.1 [makeFrameC e.2, e.1] (e.2.ncall : Int) (edgeSelfNs e.2),
   fun k => if k = childKey e.2 then st.2 k + edgeSelfNs e.2 else st.2 k)

/-- Lines 44-74: one iteration of the outer loop of the first (edge) pass;
a record without a `children` collection is skipped (lines 47-48). -/
def edgeStep (st : Table × Cov) (f : YFuncStat) : Table × Cov :=
  match f.children with
  | none => st
  | some cs => cs.foldl (fun s c => processEdge s (makeFrame f, c)) st

/-- The whole first pass (lines 43-74), starting from the empty accumulators. -/
def edgePass (stats : List YFuncStat) : Table × Cov :=
  stats.foldl edgeStep ([], fun _ => 0)

/-- Lines 77-107: one iteration of the second (root) pass. -/
def rootStep (cov : Cov) (tbl : Table) (f : YFuncStat) : Table :=
  let coveredNs := cov (funcKey f)
  let remainderNs := totalSelfNs f - coveredNs
  if 0 < remainderNs ∨ (coveredNs = 0 ∧ 0 < f.ncall) then
    bump tbl [makeFrame f] (if coveredNs = 0 then (f.ncall : Int) else 0) remainderNs
  else tbl

/-- Lines 28-111: both passes; the final trace → (count, value) table. -/
def convertSamples (stats : List YFuncStat) : Table :=
  let st := edgePass stats
  stats.foldl (rootStep st.2) st.1

/-- Modelled from the spec: `pypprof.builder` belongs to this repository but
is not under `src/`; per the spec's output boundary the encoder is handed the
finished sample table together with the metadata
`(profileKind, valueUnit, period, durationNs)`, which the call at line 120
passes positionally.  We model the handoff as a record of exactly what
crosses the boundary. -/
structure PprofHandoff where
  samples : Table
  profileKind : String
  valueUnit : String
  period : Int
  durationNs : Int
deriving DecidableEq

/-- Lines 109-121: finalize the table and hand it to the encoder.  Note the
source binds a local `unit = 'nanoseconds'` at line 114 and then passes the
literal `'count'` in the unit position of `populate_profile` at line 120. -/
def convertToPprof (clockType : String) (stats : List YFuncStat) (durationNs : Int) :
    PprofHandoff :=
  { samples := convertSamples stats
    profileKind := if clockType = "cpu" then "CPU" else "WALL"
    valueUnit := "count"
    period := 1
    durationNs := durationNs }

/-! ### Specification-side aggregation apparatus

These definitions restate, as plain sums over the flattened list of
caller→callee pairs, the quantities the spec's claims talk about; the
theorems below relate the iterative passes to them. -/

/-- The (caller frame, child record) pairs of one function record. -/
def childPairs (f : YFuncStat) : List (Frame × YChildStat) :=
  match f.children with
  | none => []
  | some cs => cs.map fun c => (makeFrame f, c)

/-- All caller→callee pairs visited by the edge pass, in visit order. -/
def edgeContribs : List YFuncStat → List (Frame × YChildStat)
  | [] => []
  | f :: rest => childPairs f ++ edgeContribs rest

/-- The two-frame, leaf-first trace an edge contributes to (line 66). -/
def edgeTrace (e : Frame × YChildStat) : Trace := [makeFrameC e.2, e.1]

/-- Sum of the values of the entries whose trace satisfies `p`. -/
def sumValP (p : Trace → Bool) (tbl : Table) : Int :=
  (tbl.map fun e => if p e.1 then e.2.2 else 0).sum

/-- Sum of the counts of all entries of the table. -/
def sumCnt (tbl : Table) : Int := (tbl.map fun e => e.2.1).sum

/-- Does a trace consist of exactly two frames with leaf frame `fr`? -/
def isEdgeLeaf (fr : Frame) : Trace → Bool
  | [a, _] => decide (a = fr)
  | _ => false

/-- Sum of the values of all two-frame samples whose leaf frame is `fr`. -/
def leafEdgeValSum (tbl : Table) (fr : Frame) : Int := sumValP (isEdgeLeaf fr) tbl

/-- The value of the one-frame root sample of `fr` (0 when none exists). -/
def rootValAt (tbl : Table) (fr : Frame) : Int := (valAt tbl [fr]).2

/-- The table contains a materialized entry for trace `t`. -/
def hasKey (tbl : Table) (t : Trace) : Prop := ∃ e ∈ tbl, e.1 = t

/-- Total invocation count over the input records. -/
def statsNcallSum (stats : List YFuncStat) : Int :=
  (stats.map fun f => (f.ncall : Int)).sum

/-- Total invocation count over all edges of the input. -/
def edgeNcallSum (stats : List YFuncStat) : Int :=
  ((edgeContribs stats).map fun e => (e.2.ncall : Int)).sum

/-! ### Concrete inputs used by witnesses and counterexamples -/

/-- Scenario A of the spec: a single `main`, no children, zero times. -/
def mainStat : YFuncStat := ⟨"main", "mod", 1, 0, 0, 1, none⟩

/-- Scenario B: `A` calls `B`; the edge carries 1s of callee self time. -/
def edgeB : YChildStat := ⟨"B", "mod", 2, 1, 0, 1⟩

def recA : YFuncStat := ⟨"A", "mod", 1, 2, 1, 1, some [edgeB]⟩

def recB : YFuncStat := ⟨"B", "mod", 2, 1, 0, 1, some []⟩

def statsB : List YFuncStat := [recA, recB]

/-- Over-coverage input: the edge reports 2s of `B` self time while `B`'s own
record reports only 1s. -/
def edgeOver : YChildStat := ⟨"B", "mod", 2, 2, 0, 1⟩

def recAover : YFuncStat := ⟨"A", "mod", 1, 0, 0, 0, some [edgeOver]⟩

def recBover : YFuncStat := ⟨"B", "mod", 2, 1, 0, 1, some []⟩

def statsOver : List YFuncStat := [recAover, recBover]

/-- Zero-time-edge input: `A` calls `B` but the edge's clamped self time is
0, so `B` accumulates no coverage despite having an incoming edge. -/
def edgeZ : YChildStat := ⟨"B", "mod", 2, 0, 0, 1⟩

def recAz : YFuncStat := ⟨"A", "mod", 1, 0, 0, 1, some [edgeZ]⟩

def recBz : YFuncStat := ⟨"B", "mod", 2, 0, 0, 1, some []⟩

def statsZ : List YFuncStat := [recAz, recBz]

/-! ### Basic properties of the accumulator operations -/

theorem lookupTr_bump_self (tbl : Table) (t : Trace) (dc dv : Int) :
    lookupTr (bump tbl t dc dv) t =
      some ((valAt tbl t).1 + dc, (valAt tbl t).2 + dv) := by
  induction tbl with
  | nil => simp [bump, lookupTr, valAt]
  | cons e rest ih =>
    obtain ⟨t', c, v⟩ := e
    by_cases h : t' = t
    · subst h
      simp [bump, lookupTr, valAt]
    · simp [bump, lookupTr, valAt, h, ih]

theorem lookupTr_bump_ne (tbl : Table) (t t' : Trace) (dc dv : Int) (h : t' ≠ t) :
    lookupTr (bump tbl t dc dv) t' = lookupTr tbl t' := by
  induction tbl with
  | nil => simp [bump, lookupTr, Ne.symm h]
  | cons e rest ih =>
    obtain ⟨t₀, c, v⟩ := e
    by_cases h₀ : t₀ = t
    · subst h₀
      simp [bump, lookupTr, Ne.symm h]
    · by_cases h₁ : t₀ = t'
      · subst h₁
        simp [bump, lookupTr, h₀]
      · simp [bump, lookupTr, h₀, h₁, ih]

theorem valAt_bump_self (tbl : Table) (t : Trace) (dc dv : Int) :
    valAt (bump tbl t dc dv) t = ((valAt tbl t).1 + dc, (valAt tbl t).2 + dv) := by
  simp [valAt, lookupTr_bump_self]

theorem valAt_bump_ne (tbl : Table) (t t' : Trace) (dc dv : Int) (h : t' ≠ t) :
    valAt (bump tbl t dc dv) t' = valAt tbl t' := by
  simp [valAt, lookupTr_bump_ne tbl t t' dc dv h]

theorem sumValP_cons (p : Trace → Bool) (e : Trace × Int × Int) (rest : Table) :
    sumValP p (e :: rest) = (if p e.1 then e.2.2 else 0) + sumValP p rest := by
  simp [sumValP]

theorem sumCnt_cons (e : Trace × Int × Int) (rest : Table) :
    sumCnt (e :: rest) = e.2.1 + sumCnt rest := by
  simp [sumCnt]

theorem sumValP_bump (p : Trace → Bool) (tbl : Table) (t : Trace) (dc dv : Int) :
    sumValP p (bump tbl t dc dv) = sumValP p tbl + (if p t then dv else 0) := by
  induction tbl with
  | nil => simp [bump, sumValP]
  | cons e rest ih =>
    obtain ⟨t', c, v⟩ := e
    by_cases h : t' = t
    · subst h
      by_cases hp : p t'
      · simp [bump, sumValP_cons, hp]
        ring
      · simp [bump, sumValP_cons, hp]
    · simp only [bump, if_neg h]
      rw [sumValP_cons, sumValP_cons, ih]
      ring

theorem sumCnt_bump (tbl : Table) (t : Trace) (dc dv : Int) :
    sumCnt (bump tbl t dc dv) = sumCnt tbl + dc := by
  induction tbl with
  | nil => simp [bump, sumCnt]
  | cons e rest ih =>
    obtain ⟨t', c, v⟩ := e
    by_cases h : t' = t
    · subst h
      simp [bump, sumCnt_cons]
      ring
    · simp only [bump, if_neg h]
      rw [sumCnt_cons, sumCnt_cons, ih]
      ring

theorem bump_nonneg (tbl : Table) (t : Trace) (dc dv : Int)
    (h : ∀ e ∈ tbl, 0 ≤ e.2.1 ∧ 0 ≤ e.2.2) (hc : 0 ≤ dc) (hv : 0 ≤ dv) :
    ∀ e ∈ bump tbl t dc dv, 0 ≤ e.2.1 ∧ 0 ≤ e.2.2 := by
  induction tbl with
  | nil =>
    intro e he
    simp [bump] at he
    simp [he, hc, hv]
  | cons e₀ rest ih =>
    obtain ⟨t', c, v⟩ := e₀
    by_cases h' : t' = t
    · subst h'
      intro e he
      simp [bump] at he
      rcases he with he | he
      · have hcv := h (t', c, v) (by simp)
        subst he
        constructor
        · exact add_nonneg hcv.1 hc
        · exact add_nonneg hcv.2 hv
      · exact h e (List.mem_cons_of_mem _ he)
    · intro e he
      simp [bump, h'] at he
      rcases he with he | he
      · subst he
        exact h (t', c, v) (by simp)
      · exact ih (fun x hx => h x (List.mem_cons_of_mem _ hx)) e he

theorem bump_keyP (P : Trace → Prop) (tbl : Table) (t : Trace) (dc dv : Int)
    (h : ∀ e ∈ tbl, P e.1) (ht : P t) :
    ∀ e ∈ bump tbl t dc dv, P e.1 := by
  induction tbl with
  | nil =>
    intro e he
    simp [bump] at he
    simp [he, ht]
  | cons e₀ rest ih =>
    obtain ⟨t', c, v⟩ := e₀
    by_cases h' : t' = t
    · subst h'
      intro e he
      simp [bump] at he
      rcases he with he | he
      · subst he
        exact h (t', c, v) (by simp)
      · exact h e (List.mem_cons_of_mem _ he)
    · intro e he
      simp [bump, h'] at he
      rcases he with he | he
      · subst he
        exact h (t', c, v) (by simp)
      · exact ih (fun x hx => h x (List.mem_cons_of_mem _ hx)) e he

theorem hasKey_iff (tbl : Table) (t : Trace) :
    hasKey tbl t ↔ lookupTr tbl t ≠ none := by
  induction tbl with
  | nil => simp [hasKey, lookupTr]
  | cons e rest ih =>
    obtain ⟨t₀, c, v⟩ := e
    by_cases h : t₀ = t
    · subst h
      simp [hasKey, lookupTr]
    · simp [hasKey, lookupTr, h, ← ih]

theorem hasKey_bump (tbl : Table) (t t' : Trace) (dc dv : Int) :
    hasKey (bump tbl t dc dv) t' ↔ t' = t ∨ hasKey tbl t' := by
  by_cases h : t' = t
  · subst h
    simp [hasKey_iff, lookupTr_bump_self]
  · simp [hasKey_iff, lookupTr_bump_ne tbl t t' dc dv h, h]

theorem lookupTr_eq_none_of_keyP (P : Trace → Prop) (tbl : Table)
    (h : ∀ e ∈ tbl, P e.1) (t : Trace) (ht : ¬ P t) : lookupTr tbl t = none := by
  induction tbl with
  | nil => rfl
  | cons e rest ih =>
    obtain ⟨t₀, c, v⟩ := e
    by_cases h₀ : t₀ = t
    · exact absurd (h₀ ▸ h (t₀, c, v) (by simp)) ht
    · simp only [lookupTr, h₀, if_false]
      exact ih fun x hx => h x (List.mem_cons_of_mem _ hx)

/-! ### Clamping lemmas -/

theorem edgeSelfNs_nonneg (c : YChildStat) : 0 ≤ edgeSelfNs c := by
  show (0 : Int) ≤ if nsDiff c.ttot c.tsub < 0 then 0 else nsDiff c.ttot c.tsub
  split <;> omega

theorem totalSelfNs_nonneg (f : YFuncStat) : 0 ≤ totalSelfNs f := by
  show (0 : Int) ≤ if nsDiff f.ttot f.tsub < 0 then 0 else nsDiff f.ttot f.tsub
  split <;> omega

theorem edgeSelfNs_eq_max (c : YChildStat) :
    edgeSelfNs c = max 0 (nsDiff c.ttot c.tsub) := by
  show (if nsDiff c.ttot c.tsub < 0 then 0 else nsDiff c.ttot c.tsub) = _
  by_cases h : nsDiff c.ttot c.tsub < 0
  · simp [h, max_eq_left (le_of_lt h)]
  · simp [h, max_eq_right (not_lt.mp h)]

theorem totalSelfNs_eq_max (f : YFuncStat) :
    totalSelfNs f = max 0 (nsDiff f.ttot f.tsub) := by
  show (if nsDiff f.ttot f.tsub < 0 then 0 else nsDiff f.ttot f.tsub) = _
  by_cases h : nsDiff f.ttot f.tsub < 0
  · simp [h, max_eq_left (le_of_lt h)]
  · simp [h, max_eq_right (not_lt.mp h)]

theorem sum_map_congr {α : Type} (l : List α) (f g : α → Int)
    (h : ∀ x ∈ l, f x = g x) : (l.map f).sum = (l.map g).sum := by
  induction l with
  | nil => rfl
  | cons a rest ih =>
    rw [List.map_cons, List.map_cons, List.sum_cons, List.sum_cons,
      h a (by simp), ih fun x hx => h x (List.mem_cons_of_mem _ hx)]

/-! ### The edge pass as a fold over the flattened caller→callee pairs -/

theorem edgeStep_eq (st : Table × Cov) (f : YFuncStat) :
    edgeStep st f = (childPairs f).foldl processEdge st := by
  cases hc : f.children with
  | none => simp [edgeStep, childPairs, hc]
  | some cs => simp [edgeStep, childPairs, hc, List.foldl_map]

theorem foldl_edgeStep_eq (stats : List YFuncStat) (st : Table × Cov) :
    stats.foldl edgeStep st = (edgeContribs stats).foldl processEdge st := by
  induction stats generalizing st with
  | nil => rfl
  | cons f rest ih =>
    simp only [List.foldl_cons, edgeContribs, List.foldl_append, edgeStep_eq, ih]

theorem edgeFold_cov (es : List (Frame × YChildStat)) (st : Table × Cov) (k : FKey) :
    (es.foldl processEdge st).2 k
      = st.2 k + (es.map fun e => if childKey e.2 = k then edgeSelfNs e.2 else 0).sum := by
  induction es generalizing st with
  | nil => simp
  | cons e rest ih =>
    simp only [List.foldl_cons, List.map_cons, List.sum_cons, ih]
    by_cases h : k = childKey e.2
    · subst h
      simp [processEdge]
      ring
    · simp [processEdge, h, Ne.symm h]

theorem edgeFold_valAt (es : List (Frame × YChildStat)) (st : Table × Cov) (t : Trace) :
    valAt (es.foldl processEdge st).1 t
      = ((valAt st.1 t).1
            + (es.map fun e => if edgeTrace e = t then (e.2.ncall : Int) else 0).sum,
         (valAt st.1 t).2
            + (es.map fun e => if edgeTrace e = t then edgeSelfNs e.2 else 0).sum) := by
  induction es generalizing st with
  | nil => simp
  | cons e rest ih =>
    simp only [List.foldl_cons, List.map_cons, List.sum_cons, ih]
    by_cases h : edgeTrace e = t
    · subst h
      have hb : (processEdge st e).1
          = bump st.1 (edgeTrace e) (e.2.ncall : Int) (edgeSelfNs e.2) := rfl
      rw [hb, valAt_bump_self]
      simp [Prod.ext_iff]
      constructor <;> ring
    · have hne : t ≠ edgeTrace e := fun heq => h heq.symm
      have hb : (processEdge st e).1
          = bump st.1 (edgeTrace e) (e.2.ncall : Int) (edgeSelfNs e.2) := rfl
      rw [hb, valAt_bump_ne _ _ _ _ _ hne]
      simp [h]

theorem edgeFold_sumValP (p : Trace → Bool) (es : List (Frame × YChildStat))
    (st : Table × Cov) :
    sumValP p (es.foldl processEdge st).1
      = sumValP p st.1
          + (es.map fun e => if p (edgeTrace e) then edgeSelfNs e.2 else 0).sum := by
  induction es generalizing st with
  | nil => simp
  | cons e rest ih =>
    simp only [List.foldl_cons, List.map_cons, List.sum_cons, ih]
    have hb : (processEdge st e).1
        = bump st.1 (edgeTrace e) (e.2.ncall : Int) (edgeSelfNs e.2) := rfl
    rw [hb, sumValP_bump]
    ring

theorem edgeFold_sumCnt (es : List (Frame × YChildStat)) (st : Table × Cov) :
    sumCnt (es.foldl processEdge st).1
      = sumCnt st.1 + (es.map fun e => (e.2.ncall : Int)).sum := by
  induction es generalizing st with
  | nil => simp
  | cons e rest ih =>
    simp only [List.foldl_cons, List.map_cons, List.sum_cons, ih]
    have hb : (processEdge st e).1
        = bump st.1 (edgeTrace e) (e.2.ncall : Int) (edgeSelfNs e.2) := rfl
    rw [hb, sumCnt_bump]
    ring

theorem edgeFold_keyP (P : Trace → Prop) (es : List (Frame × YChildStat))
    (st : Table × Cov) (h : ∀ e ∈ st.1, P e.1)
    (hes : ∀ e ∈ es, P (edgeTrace e)) :
    ∀ x ∈ (es.foldl processEdge st).1, P x.1 := by
  induction es generalizing st with
  | nil => exact h
  | cons e rest ih =>
    exact ih (processEdge st e)
      (bump_keyP P st.1 (edgeTrace e) _ _ h (hes e (by simp)))
      (fun x hx => hes x (List.mem_cons_of_mem _ hx))

theorem edgeFold_nonneg (es : List (Frame × YChildStat)) (st : Table × Cov)
    (h : ∀ e ∈ st.1, 0 ≤ e.2.1 ∧ 0 ≤ e.2.2) :
    ∀ x ∈ (es.foldl processEdge st).1, 0 ≤ x.2.1 ∧ 0 ≤ x.2.2 := by
  induction es generalizing st with
  | nil => exact h
  | cons e rest ih =>
    exact ih (processEdge st e)
      (bump_nonneg st.1 (edgeTrace e) _ _ h (Int.natCast_nonneg _)
        (edgeSelfNs_nonneg e.2))

theorem edgePass_cov (stats : List YFuncStat) (k : FKey) :
    (edgePass stats).2 k
      = ((edgeContribs stats).map fun e =>
          if childKey e.2 = k then edgeSelfNs e.2 else 0).sum := by
  rw [edgePass, foldl_edgeStep_eq, edgeFold_cov]
  simp

/-! ### The root pass -/

theorem rootStep_pos (cov : Cov) (tbl : Table) (f : YFuncStat)
    (hc : 0 < totalSelfNs f - cov (funcKey f)
        ∨ (cov (funcKey f) = 0 ∧ 0 < f.ncall)) :
    rootStep cov tbl f
      = bump tbl [makeFrame f] (if cov (funcKey f) = 0 then (f.ncall : Int) else 0)
          (totalSelfNs f - cov (funcKey f)) := by
  show (if 0 < totalSelfNs f - cov (funcKey f)
        ∨ (cov (funcKey f) = 0 ∧ 0 < f.ncall) then
      bump tbl [makeFrame f] (if cov (funcKey f) = 0 then (f.ncall : Int) else 0)
        (totalSelfNs f - cov (funcKey f))
    else tbl) = _
  exact if_pos hc

theorem rootStep_neg (cov : Cov) (tbl : Table) (f : YFuncStat)
    (hc : ¬ (0 < totalSelfNs f - cov (funcKey f)
        ∨ (cov (funcKey f) = 0 ∧ 0 < f.ncall))) :
    rootStep cov tbl f = tbl := by
  show (if 0 < totalSelfNs f - cov (funcKey f)
        ∨ (cov (funcKey f) = 0 ∧ 0 < f.ncall) then
      bump tbl [makeFrame f] (if cov (funcKey f) = 0 then (f.ncall : Int) else 0)
        (totalSelfNs f - cov (funcKey f))
    else tbl) = _
  exact if_neg hc

theorem rootFold_valAt (cov : Cov) (stats : List YFuncStat) (tbl : Table) (t : Trace) :
    valAt (stats.foldl (rootStep cov) tbl) t
      = ((valAt tbl t).1 + (stats.map fun f =>
            if [makeFrame f] = t ∧ (0 < totalSelfNs f - cov (funcKey f)
                ∨ (cov (funcKey f) = 0 ∧ 0 < f.ncall))
            then (if cov (funcKey f) = 0 then (f.ncall : Int) else 0) else 0).sum,
         (valAt tbl t).2 + (stats.map fun f =>
            if [makeFrame f] = t ∧ (0 < totalSelfNs f - cov (funcKey f)
                ∨ (cov (funcKey f) = 0 ∧ 0 < f.ncall))
            then totalSelfNs f - cov (funcKey f) else 0).sum) := by
  induction stats generalizing tbl with
  | nil => simp
  | cons f rest ih =>
    simp only [List.foldl_cons, List.map_cons, List.sum_cons, ih]
    by_cases hc : 0 < totalSelfNs f - cov (funcKey f)
        ∨ (cov (funcKey f) = 0 ∧ 0 < f.ncall)
    · by_cases ht : [makeFrame f] = t
      · subst ht
        have hcond : [makeFrame f] = [makeFrame f]
            ∧ (0 < totalSelfNs f - cov (funcKey f)
              ∨ (cov (funcKey f) = 0 ∧ 0 < f.ncall)) := ⟨rfl, hc⟩
        rw [rootStep_pos cov tbl f hc, valAt_bump_self, if_pos hcond, if_pos hcond]
        simp only [Prod.mk.injEq]
        constructor <;> ring
      · have hcond : ¬([makeFrame f] = t
            ∧ (0 < totalSelfNs f - cov (funcKey f)
              ∨ (cov (funcKey f) = 0 ∧ 0 < f.ncall))) := fun hh => ht hh.1
        rw [rootStep_pos cov tbl f hc,
          valAt_bump_ne _ _ _ _ _ (fun heq => ht heq.symm),
          if_neg hcond, if_neg hcond]
        simp only [Prod.mk.injEq]
        constructor <;> ring
    · have hcond : ¬([makeFrame f] = t
          ∧ (0 < totalSelfNs f - cov (funcKey f)
            ∨ (cov (funcKey f) = 0 ∧ 0 < f.ncall))) := fun hh => hc hh.2
      rw [rootStep_neg cov tbl f hc, if_neg hcond, if_neg hcond]
      simp only [Prod.mk.injEq]
      constructor <;> ring

theorem rootFold_hasKey (cov : Cov) (stats : List YFuncStat) (tbl : Table) (t : Trace) :
    hasKey (stats.foldl (rootStep cov) tbl) t
      ↔ hasKey tbl t ∨ ∃ f ∈ stats, t = [makeFrame f]
          ∧ (0 < totalSelfNs f - cov (funcKey f)
              ∨ (cov (funcKey f) = 0 ∧ 0 < f.ncall)) := by
  induction stats generalizing tbl with
  | nil => simp
  | cons f rest ih =>
    simp only [List.foldl_cons, ih]
    by_cases hc : 0 < totalSelfNs f - cov (funcKey f)
        ∨ (cov (funcKey f) = 0 ∧ 0 < f.ncall)
    · rw [rootStep_pos cov tbl f hc, hasKey_bump]
      simp only [List.mem_cons]
      constructor
      · rintro ((ht | h) | ⟨g, hg, hgt⟩)
        · exact Or.inr ⟨f, Or.inl rfl, ht, hc⟩
        · exact Or.inl h
        · exact Or.inr ⟨g, Or.inr hg, hgt⟩
      · rintro (h | ⟨g, (rfl | hg), hgt⟩)
        · exact Or.inl (Or.inr h)
        · exact Or.inl (Or.inl hgt.1)
        · exact Or.inr ⟨g, hg, hgt⟩
    · rw [rootStep_neg cov tbl f hc]
      simp only [List.mem_cons]
      constructor
      · rintro (h | ⟨g, hg, hgt⟩)
        · exact Or.inl h
        · exact Or.inr ⟨g, Or.inr hg, hgt⟩
      · rintro (h | ⟨g, (rfl | hg), hgt⟩)
        · exact Or.inl h
        · exact absurd hgt.2 hc
        · exact Or.inr ⟨g, hg, hgt⟩

theorem rootFold_sumValP (p : Trace → Bool) (cov : Cov) (stats : List YFuncStat)
    (tbl : Table) (hp : ∀ fr : Frame, p [fr] = false) :
    sumValP p (stats.foldl (rootStep cov) tbl) = sumValP p tbl := by
  induction stats generalizing tbl with
  | nil => rfl
  | cons f rest ih =>
    simp only [List.foldl_cons]
    rw [ih]
    by_cases hc : 0 < totalSelfNs f - cov (funcKey f)
        ∨ (cov (funcKey f) = 0 ∧ 0 < f.ncall)
    · rw [rootStep_pos cov tbl f hc, sumValP_bump]
      simp [hp]
    · rw [rootStep_neg cov tbl f hc]

theorem rootFold_sumCnt_le (cov : Cov) (stats : List YFuncStat) (tbl : Table) :
    sumCnt (stats.foldl (rootStep cov) tbl)
      ≤ sumCnt tbl + (stats.map fun f => (f.ncall : Int)).sum := by
  induction stats generalizing tbl with
  | nil => simp
  | cons f rest ih =>
    simp only [List.foldl_cons, List.map_cons, List.sum_cons]
    have hstep : sumCnt (rootStep cov tbl f) ≤ sumCnt tbl + (f.ncall : Int) := by
      by_cases hc : 0 < totalSelfNs f - cov (funcKey f)
          ∨ (cov (funcKey f) = 0 ∧ 0 < f.ncall)
      · rw [rootStep_pos cov tbl f hc, sumCnt_bump]
        have : (0 : Int) ≤ (f.ncall : Int) := Int.natCast_nonneg _
        split <;> omega
      · rw [rootStep_neg cov tbl f hc]
        have : (0 : Int) ≤ (f.ncall : Int) := Int.natCast_nonneg _
        omega
    calc sumCnt (rest.foldl (rootStep cov) (rootStep cov tbl f))
        ≤ sumCnt (rootStep cov tbl f)
            + (rest.map fun f => (f.ncall : Int)).sum := ih _
      _ ≤ sumCnt tbl + ((f.ncall : Int)
            + (rest.map fun f => (f.ncall : Int)).sum) := by omega

theorem rootFold_nonneg (cov : Cov) (stats : List YFuncStat) (tbl : Table)
    (h : ∀ e ∈ tbl, 0 ≤ e.2.1 ∧ 0 ≤ e.2.2) :
    ∀ x ∈ stats.foldl (rootStep cov) tbl, 0 ≤ x.2.1 ∧ 0 ≤ x.2.2 := by
  induction stats generalizing tbl with
  | nil => exact h
  | cons f rest ih =>
    simp only [List.foldl_cons]
    refine ih (rootStep cov tbl f) ?_
    by_cases hc : 0 < totalSelfNs f - cov (funcKey f)
        ∨ (cov (funcKey f) = 0 ∧ 0 < f.ncall)
    · rw [rootStep_pos cov tbl f hc]
      refine bump_nonneg _ _ _ _ h ?_ ?_
      · split
        · exact Int.natCast_nonneg _
        · exact le_refl 0
      · rcases hc with hc | hc
        · omega
        · have := totalSelfNs_nonneg f
          omega
    · rw [rootStep_neg cov tbl f hc]
      exact h

/-! ### Bridging lemmas between the two passes -/

theorem convertSamples_eq (stats : List YFuncStat) :
    convertSamples stats
      = stats.foldl (rootStep (edgePass stats).2) (edgePass stats).1 := rfl

theorem edgeTrace_eq_pair (e : Frame × YChildStat) (a b : Frame) :
    edgeTrace e = [a, b] ↔ makeFrameC e.2 = a ∧ e.1 = b := by
  simp [edgeTrace]

theorem frameC_eq_makeFrame_iff (c : YChildStat) (f : YFuncStat) :
    makeFrameC c = makeFrame f ↔ childKey c = funcKey f := by
  simp only [makeFrameC, makeFrame, childKey, funcKey, Prod.mk.injEq]
  tauto

theorem makeFrame_eq_iff (f g : YFuncStat) :
    makeFrame f = makeFrame g ↔ funcKey f = funcKey g := by
  simp only [makeFrame, funcKey, Prod.mk.injEq]
  tauto

theorem edgePass_keylen (stats : List YFuncStat) :
    ∀ e ∈ (edgePass stats).1, e.1.length = 2 := by
  rw [edgePass, foldl_edgeStep_eq]
  exact edgeFold_keyP (fun t => t.length = 2) (edgeContribs stats)
    ([], fun _ => 0) (by simp) (fun e he => rfl)

theorem edgePass_valAt_one (stats : List YFuncStat) (fr : Frame) :
    valAt (edgePass stats).1 [fr] = (0, 0) := by
  unfold valAt
  rw [lookupTr_eq_none_of_keyP (fun t => t.length = 2) _ (edgePass_keylen stats) _
    (by simp)]
  rfl

theorem edgePass_not_hasKey_one (stats : List YFuncStat) (fr : Frame) :
    ¬ hasKey (edgePass stats).1 [fr] := by
  rw [hasKey_iff]
  have h := lookupTr_eq_none_of_keyP (fun t => t.length = 2) _
    (edgePass_keylen stats) [fr] (by simp)
  simp [h]

theorem sum_map_single {α : Type} [DecidableEq α] (l : List α) (g : α → Int) (x : α)
    (hcount : l.count x = 1) (hz : ∀ y ∈ l, y ≠ x → g y = 0) :
    (l.map g).sum = g x := by
  induction l with
  | nil => simp at hcount
  | cons a rest ih =>
    rw [List.map_cons, List.sum_cons]
    by_cases ha : a = x
    · subst ha
      have hc0 : rest.count a = 0 := by
        rw [List.count_cons_self] at hcount
        omega
      have hres : ∀ y ∈ rest, g y = 0 := by
        intro y hy
        by_cases hyx : y = a
        · subst hyx
          exact absurd hy (List.count_eq_zero.mp hc0)
        · exact hz y (List.mem_cons_of_mem _ hy) hyx
      rw [List.sum_eq_zero fun y hy => by
        rcases List.mem_map.mp hy with ⟨z, hz', rfl⟩
        exact hres z hz']
      ring
    · rw [hz a (by simp) ha, ih ?_ fun y hy => hz y (List.mem_cons_of_mem _ hy)]
      · ring
      · rwa [List.count_cons_of_ne (Ne.symm ha)] at hcount

/-! ### Claim theorems -/

/-- C3: for every function record `F` and edge `E` in `F.children`, the edge
pass computes `selfTimeNs = max(0, ns(E.ttot − E.tsub))`, accumulates the
pair `(E.ncall, selfTimeNs)` into the sample table under the two-frame trace
`(Frame(E), Frame(F))` with the callee frame at index 0, and accumulates the
same `selfTimeNs` into `CoverageMap[identity(E)]`, summing over all callers
of the same callee. -/
theorem c3_edge_pass (stats : List YFuncStat) (a b : Frame) (k : FKey) :
    valAt (edgePass stats).1 [a, b]
        = (((edgeContribs stats).map fun e =>
              if makeFrameC e.2 = a ∧ e.1 = b then (e.2.ncall : Int) else 0).sum,
           ((edgeContribs stats).map fun e =>
              if makeFrameC e.2 = a ∧ e.1 = b then edgeSelfNs e.2 else 0).sum)
      ∧ (edgePass stats).2 k
          = ((edgeContribs stats).map fun e =>
              if childKey e.2 = k then edgeSelfNs e.2 else 0).sum
      ∧ ∀ c : YChildStat, edgeSelfNs c = max 0 (nsDiff c.ttot c.tsub) := by
  refine ⟨?_, edgePass_cov stats k, fun c => edgeSelfNs_eq_max c⟩
  rw [edgePass, foldl_edgeStep_eq, edgeFold_valAt]
  have h1 : ∀ X : Frame × YChildStat → Int,
      ((edgeContribs stats).map fun e => if edgeTrace e = [a, b] then X e else 0).sum
        = ((edgeContribs stats).map fun e =>
            if makeFrameC e.2 = a ∧ e.1 = b then X e else 0).sum :=
    fun X => sum_map_congr _ _ _ fun e he => if_congr (edgeTrace_eq_pair e a b) rfl rfl
  simp only [valAt, lookupTr, Option.getD_none]
  rw [Prod.mk.injEq]
  exact ⟨by rw [zero_add]; exact h1 _, by rw [zero_add]; exact h1 _⟩

/-- C4: the final sample table contains the one-frame trace `(fr,)` exactly
when some input record `F` with `Frame(F) = fr` satisfies
`remainderNs > 0 ∨ (coveredNs = 0 ∧ F.ncall > 0)`, where
`totalSelfNs = max(0, ns(F.ttot − F.tsub))`, `coveredNs` is `F`'s coverage
entry (0 if absent), and `remainderNs = totalSelfNs − coveredNs`. -/
theorem c4_root_emission (stats : List YFuncStat) (fr : Frame) :
    hasKey (convertSamples stats) [fr]
      ↔ ∃ F ∈ stats, makeFrame F = fr
          ∧ (0 < max 0 (nsDiff F.ttot F.tsub) - (edgePass stats).2 (funcKey F)
              ∨ ((edgePass stats).2 (funcKey F) = 0 ∧ 0 < F.ncall)) := by
  rw [convertSamples_eq, rootFold_hasKey]
  simp only [edgePass_not_hasKey_one stats fr, false_or]
  constructor
  · rintro ⟨f, hf, heq, hcond⟩
    have hfr : fr = makeFrame f := by simpa using heq
    refine ⟨f, hf, hfr.symm, ?_⟩
    rw [← totalSelfNs_eq_max]
    exact hcond
  · rintro ⟨f, hf, heq, hcond⟩
    refine ⟨f, hf, by rw [heq], ?_⟩
    rw [totalSelfNs_eq_max]
    exact hcond

/-- C5: when the root pass emits a remainder sample for `F`, the count it
adds is `F.ncall` when `coveredNs = 0` and `0` otherwise. -/
theorem c5_root_count (cov : Cov) (tbl : Table) (f : YFuncStat)
    (h : 0 < totalSelfNs f - cov (funcKey f)
        ∨ (cov (funcKey f) = 0 ∧ 0 < f.ncall)) :
    (valAt (rootStep cov tbl f) [makeFrame f]).1
      = (valAt tbl [makeFrame f]).1
          + (if cov (funcKey f) = 0 then (f.ncall : Int) else 0) := by
  rw [rootStep_pos cov tbl f h, valAt_bump_self]

theorem c5_witness :
    (valAt (rootStep (fun _ => 0) [] mainStat) [makeFrame mainStat]).1
      = (valAt [] [makeFrame mainStat]).1
          + (if (0 : Int) = 0 then (mainStat.ncall : Int) else 0) :=
  c5_root_count (fun _ => 0) [] mainStat (Or.inr ⟨rfl, by decide⟩)

/-- C7: every entry of the final sample table has non-negative count and
non-negative value. -/
theorem c7_nonneg (stats : List YFuncStat) (t : Trace) (c v : Int)
    (h : (t, c, v) ∈ convertSamples stats) : 0 ≤ c ∧ 0 ≤ v := by
  rw [convertSamples_eq] at h
  have hedge : ∀ e ∈ (edgePass stats).1, 0 ≤ e.2.1 ∧ 0 ≤ e.2.2 := by
    rw [edgePass, foldl_edgeStep_eq]
    exact edgeFold_nonneg _ _ (by simp)
  exact rootFold_nonneg _ stats _ hedge (t, c, v) h

theorem c7_witness :
    ([makeFrame mainStat], (1 : Int), (0 : Int)) ∈ convertSamples [mainStat]
      ∧ ((0 : Int) ≤ 1 ∧ (0 : Int) ≤ 0) :=
  ⟨by decide, c7_nonneg [mainStat] [makeFrame mainStat] 1 0 (by decide)⟩

/-- C9 (Scenario A): a single `main` record with no children, zero times and
one invocation produces exactly one sample, keyed by the one-frame trace
`(main,)`, with count 1 and value 0. -/
theorem c9_scenario_a :
    convertSamples [mainStat] = [([makeFrame mainStat], 1, 0)] := by decide

/-- C2 (code bug): the metadata handed to the encoder carries profile kind
`CPU` for the `cpu` clock and `WALL` otherwise, period 1 and the session
duration, but the value unit passed is the literal `count`, not
`nanoseconds` as the spec states (the source computes a local
`unit = 'nanoseconds'` and then does not pass it). -/
theorem c2_metadata :
    (convertToPprof "cpu" [] 7).profileKind = "CPU"
      ∧ (convertToPprof "wall" [] 7).profileKind = "WALL"
      ∧ (convertToPprof "cpu" [] 7).period = 1
      ∧ (convertToPprof "cpu" [] 7).durationNs = 7
      ∧ (convertToPprof "cpu" [] 7).valueUnit = "count"
      ∧ "count" ≠ "nanoseconds" := by
  exact ⟨rfl, rfl, rfl, rfl, rfl, by decide⟩

/-- Replace an absent `children` collection by an empty one. -/
def normChildren (f : YFuncStat) : YFuncStat :=
  { f with children := some (f.children.getD []) }

/-- C8: a record without a `children` collection contributes nothing to the
edge pass (it is treated as having no outgoing edges), the conversion is
unchanged by normalizing such records to an empty edge list, and the root
pass processes every record regardless of its `children` field. -/
theorem c8_missing_children :
    (∀ (st : Table × Cov) (f : YFuncStat), f.children = none → edgeStep st f = st)
      ∧ (∀ stats : List YFuncStat,
          convertSamples (stats.map normChildren) = convertSamples stats)
      ∧ (∀ (cov : Cov) (tbl : Table) (f : YFuncStat) (cs : Option (List YChildStat)),
          rootStep cov tbl { f with children := cs } = rootStep cov tbl f) := by
  have h1 : ∀ (st : Table × Cov) (f : YFuncStat),
      f.children = none → edgeStep st f = st := by
    intro st f h
    unfold edgeStep
    rw [h]
  have hcp : ∀ f : YFuncStat, childPairs (normChildren f) = childPairs f := by
    intro f
    cases hc : f.children with
    | none => simp [childPairs, normChildren, hc]
    | some cs => simp [childPairs, normChildren, hc, makeFrame]
  have hstep : ∀ (st : Table × Cov) (f : YFuncStat),
      edgeStep st (normChildren f) = edgeStep st f := by
    intro st f
    rw [edgeStep_eq, edgeStep_eq, hcp]
  have h2 : ∀ (stats : List YFuncStat) (st : Table × Cov),
      (stats.map normChildren).foldl edgeStep st = stats.foldl edgeStep st := by
    intro stats
    induction stats with
    | nil => intro st; rfl
    | cons f rest ih =>
      intro st
      rw [List.map_cons, List.foldl_cons, List.foldl_cons, hstep, ih]
  have h3 : ∀ (cov : Cov) (tbl : Table) (f : YFuncStat)
      (cs : Option (List YChildStat)),
      rootStep cov tbl { f with children := cs } = rootStep cov tbl f :=
    fun _ _ _ _ => rfl
  have h4 : ∀ (cov : Cov) (stats : List YFuncStat) (tbl : Table),
      (stats.map normChildren).foldl (rootStep cov) tbl
        = stats.foldl (rootStep cov) tbl := by
    intro cov stats
    induction stats with
    | nil => intro tbl; rfl
    | cons f rest ih =>
      intro tbl
      rw [List.map_cons, List.foldl_cons, List.foldl_cons]
      exact ih (rootStep cov tbl f)
  refine ⟨h1, ?_, h3⟩
  intro stats
  rw [convertSamples_eq, convertSamples_eq]
  have he : edgePass (stats.map normChildren) = edgePass stats := by
    rw [edgePass, edgePass, h2]
  rw [he, h4]

theorem c8_witness :
    edgeStep (([], fun _ => 0) : Table × Cov) mainStat
      = (([], fun _ => 0) : Table × Cov) :=
  c8_missing_children.1 ([], fun _ => 0) mainStat rfl

/-- C6 counterexample: with `A` (1 call) invoking `B` through an edge whose
clamped self time is zero and `B` recorded with 1 call, the emitted counts
sum to 3 while the input records' invocation counts sum to 2, so the sum of
sample counts exceeds the sum of record invocation counts. -/
theorem c6_cex : statsNcallSum statsZ < sumCnt (convertSamples statsZ) := by
  decide

/-- C6 amended: the sum of the counts of all emitted samples never exceeds
the sum of `invocationCount` over the input records plus the sum of
`invocationCount` over all edges of the input. -/
theorem c6_count_bound (stats : List YFuncStat) :
    sumCnt (convertSamples stats) ≤ statsNcallSum stats + edgeNcallSum stats := by
  rw [convertSamples_eq]
  have h1 : sumCnt (edgePass stats).1 = edgeNcallSum stats := by
    rw [edgePass, foldl_edgeStep_eq, edgeFold_sumCnt]
    simp [edgeNcallSum, sumCnt]
  have h2 := rootFold_sumCnt_le (edgePass stats).2 stats (edgePass stats).1
  rw [h1] at h2
  have h3 : (stats.map fun f => (f.ncall : Int)).sum = statsNcallSum stats := rfl
  rw [h3] at h2
  omega

/-- C10: a function reached as callee only through edges whose clamped self
time is zero keeps a coverage entry of 0 despite its incoming edges, so a
record for it with positive invocation count is treated as an entirely
uncovered root: the root pass adds a one-frame sample contribution carrying
its full invocation count, on top of the two-frame edge samples, which the
root pass leaves untouched. -/
theorem c10_zero_coverage (stats : List YFuncStat) (k : FKey) (F : YFuncStat)
    (tbl : Table)
    (hzero : ∀ e ∈ edgeContribs stats, childKey e.2 = k → edgeSelfNs e.2 = 0)
    (_hedge : ∃ e ∈ edgeContribs stats, childKey e.2 = k)
    (_hF : F ∈ stats) (hk : funcKey F = k) (hn : 0 < F.ncall) :
    (edgePass stats).2 k = 0
      ∧ (valAt (rootStep (edgePass stats).2 tbl F) [makeFrame F]).1
          = (valAt tbl [makeFrame F]).1 + (F.ncall : Int)
      ∧ ∀ a b : Frame,
          valAt (convertSamples stats) [a, b] = valAt (edgePass stats).1 [a, b] := by
  have hcov : (edgePass stats).2 k = 0 := by
    rw [edgePass_cov]
    apply List.sum_eq_zero
    intro y hy
    rcases List.mem_map.mp hy with ⟨e, he, rfl⟩
    by_cases hk' : childKey e.2 = k
    · simp [hk', hzero e he hk']
    · simp [hk']
  have hcovF : (edgePass stats).2 (funcKey F) = 0 := by rw [hk]; exact hcov
  refine ⟨hcov, ?_, ?_⟩
  · have hc : 0 < totalSelfNs F - (edgePass stats).2 (funcKey F)
        ∨ ((edgePass stats).2 (funcKey F) = 0 ∧ 0 < F.ncall) := Or.inr ⟨hcovF, hn⟩
    rw [rootStep_pos _ _ _ hc, valAt_bump_self, if_pos hcovF]
  · intro a b
    rw [convertSamples_eq, rootFold_valAt]
    have hz : ∀ g : YFuncStat → Int,
        (stats.map fun f =>
          if [makeFrame f] = [a, b]
              ∧ (0 < totalSelfNs f - (edgePass stats).2 (funcKey f)
                ∨ ((edgePass stats).2 (funcKey f) = 0 ∧ 0 < f.ncall))
          then g f else 0).sum = 0 := by
      intro g
      apply List.sum_eq_zero
      intro y hy
      rcases List.mem_map.mp hy with ⟨f, hf, rfl⟩
      have hne : ([makeFrame f] : Trace) ≠ [a, b] := by simp
      rw [if_neg fun hh => hne hh.1]
    rw [hz, hz]
    simp

theorem c10_witness : (edgePass statsZ).2 ("B", "mod", 2) = 0 :=
  (c10_zero_coverage statsZ ("B", "mod", 2) recBz [] (by decide) (by decide)
    (by decide) (by decide) (by decide)).1

/-- C1 counterexample: when per-edge clamping makes the coverage of `B`
(2s of edge self time) exceed `B`'s own clamped total self time (1s), no
root sample is emitted and the edge samples alone sum to 2s, so the claimed
conservation equality fails for `B`. -/
theorem c1_cex :
    recBover ∈ statsOver
      ∧ leafEdgeValSum (convertSamples statsOver) (makeFrame recBover)
          + rootValAt (convertSamples statsOver) (makeFrame recBover)
        ≠ max 0 (nsDiff recBover.ttot recBover.tsub) := by
  decide

/-- C1 amended: for every record `F` whose identity is unique among the
input records and whose accumulated edge coverage does not exceed its
clamped total self time, the sum of the values of all two-frame edge
samples whose leaf frame is `Frame(F)`, plus the value of `F`'s one-frame
root sample (0 when none is emitted), equals
`max(0, ns(F.ttot − F.tsub))` exactly. -/
theorem c1_conservation (stats : List YFuncStat) (F : YFuncStat)
    (_hmem : F ∈ stats)
    (hcount : stats.count F = 1)
    (huniq : ∀ G ∈ stats, funcKey G = funcKey F → G = F)
    (hcov : (edgePass stats).2 (funcKey F) ≤ totalSelfNs F) :
    leafEdgeValSum (convertSamples stats) (makeFrame F)
        + rootValAt (convertSamples stats) (makeFrame F)
      = max 0 (nsDiff F.ttot F.tsub) := by
  have hleaf : leafEdgeValSum (convertSamples stats) (makeFrame F)
      = (edgePass stats).2 (funcKey F) := by
    rw [convertSamples_eq]
    unfold leafEdgeValSum
    rw [rootFold_sumValP _ _ _ _ fun fr => rfl, edgePass_cov, edgePass,
      foldl_edgeStep_eq, edgeFold_sumValP]
    have h1 : ∀ e ∈ edgeContribs stats,
        (if isEdgeLeaf (makeFrame F) (edgeTrace e) then edgeSelfNs e.2 else 0)
          = (if childKey e.2 = funcKey F then edgeSelfNs e.2 else 0) := by
      intro e he
      have hiff : (isEdgeLeaf (makeFrame F) (edgeTrace e) = true)
          ↔ childKey e.2 = funcKey F := by
        show (decide (makeFrameC e.2 = makeFrame F) = true) ↔ _
        rw [decide_eq_true_eq]
        exact frameC_eq_makeFrame_iff e.2 F
      exact if_congr hiff rfl rfl
    rw [sum_map_congr _ _ _ h1]
    simp [sumValP]
  have hroot : rootValAt (convertSamples stats) (makeFrame F)
      = (if 0 < totalSelfNs F - (edgePass stats).2 (funcKey F)
            ∨ ((edgePass stats).2 (funcKey F) = 0 ∧ 0 < F.ncall)
          then totalSelfNs F - (edgePass stats).2 (funcKey F) else 0) := by
    unfold rootValAt
    rw [convertSamples_eq, rootFold_valAt, edgePass_valAt_one]
    have hz : ∀ G ∈ stats, G ≠ F →
        (if [makeFrame G] = [makeFrame F]
            ∧ (0 < totalSelfNs G - (edgePass stats).2 (funcKey G)
              ∨ ((edgePass stats).2 (funcKey G) = 0 ∧ 0 < G.ncall))
          then totalSelfNs G - (edgePass stats).2 (funcKey G) else 0) = 0 := by
      intro G hG hGF
      have hne : ¬ ([makeFrame G] : Trace) = [makeFrame F] := by
        intro hh
        have hmf : makeFrame G = makeFrame F := by simpa using hh
        exact hGF (huniq G hG ((makeFrame_eq_iff G F).mp hmf))
      rw [if_neg fun hh => hne hh.1]
    have hcol := sum_map_single stats
      (fun G => if [makeFrame G] = [makeFrame F]
            ∧ (0 < totalSelfNs G - (edgePass stats).2 (funcKey G)
              ∨ ((edgePass stats).2 (funcKey G) = 0 ∧ 0 < G.ncall))
          then totalSelfNs G - (edgePass stats).2 (funcKey G) else 0)
      F hcount hz
    dsimp only
    rw [hcol]
    dsimp only
    by_cases hcnd : 0 < totalSelfNs F - (edgePass stats).2 (funcKey F)
        ∨ ((edgePass stats).2 (funcKey F) = 0 ∧ 0 < F.ncall)
    · rw [if_pos (⟨rfl, hcnd⟩ : ([makeFrame F] : Trace) = [makeFrame F]
          ∧ (0 < totalSelfNs F - (edgePass stats).2 (funcKey F)
            ∨ ((edgePass stats).2 (funcKey F) = 0 ∧ 0 < F.ncall))),
        if_pos hcnd, zero_add]
    · rw [if_neg (fun hh => hcnd hh.2 :
          ¬ (([makeFrame F] : Trace) = [makeFrame F]
            ∧ (0 < totalSelfNs F - (edgePass stats).2 (funcKey F)
              ∨ ((edgePass stats).2 (funcKey F) = 0 ∧ 0 < F.ncall)))),
        if_neg hcnd, zero_add]
  rw [hleaf, hroot, ← totalSelfNs_eq_max]
  by_cases hcnd : 0 < totalSelfNs F - (edgePass stats).2 (funcKey F)
      ∨ ((edgePass stats).2 (funcKey F) = 0 ∧ 0 < F.ncall)
  · rw [if_pos hcnd]
    ring
  · rw [if_neg hcnd]
    have h1 : ¬ 0 < totalSelfNs F - (edgePass stats).2 (funcKey F) :=
      fun h => hcnd (Or.inl h)
    omega

theorem c1_witness :
    recB ∈ statsB
      ∧ leafEdgeValSum (convertSamples statsB) (makeFrame recB)
          + rootValAt (convertSamples statsB) (makeFrame recB)
        = max 0 (nsDiff recB.ttot recB.tsub) :=
  ⟨by decide,
    c1_conservation statsB recB (by decide) (by decide) (by decide) (by decide)⟩

/-- Sanity check (Scenario B of the spec): `A` calls `B` once, the edge
carries 1s of `B` self time, and `A` keeps 1s of uncovered self time. -/
theorem scenario_b_table : convertSamples statsB =
    [([("B", "mod", 2, 2), ("A", "mod", 1, 1)], 1, 1000000000),
     ([("A", "mod", 1, 1)], 1, 1000000000)] := by decide
